import Mathlib

/-!
Verification of the claim-template engine of the `jwt_signer` Caddy module
(`signer.go`).  The Go values of type `jwt.MapClaims` (`map[string]any`) are
embedded as the mutual inductive `CVal`/`CMap`: a value is a string, a nested
map, or a non-string scalar (boolean / integer), and a map is an association
list with Go-map assignment (overwrite) semantics via `CMap.set`.
-/

/-- Non-string, non-map scalar values that can sit in a claim template
(`default` branch of the type switch in `fillClaims`). -/
inductive Scal where
| b (x : Bool)
| i (n : Int)
deriving DecidableEq, Repr

mutual

/-- A value of the Go type `any` as used inside `jwt.MapClaims`:
a string, a nested `map[string]any`, or another scalar. -/
inductive CVal where
| str (s : String)
| nested (m : CMap)
| scalar (sc : Scal)
deriving DecidableEq

/-- A `jwt.MapClaims` value (`map[string]any`), embedded as an association
list.  `CMap.nil` stands for the empty (or nil) map. -/
inductive CMap where
| nil
| cons (k : String) (v : CVal) (rest : CMap)
deriving DecidableEq

end

/-- Map lookup: `m[k]`, first matching key. -/
def CMap.lookup : CMap → String → Option CVal
| .nil, _ => none
| .cons k' v rest, k => if k' = k then some v else rest.lookup k

/-- Go map assignment `m[k] = v`: overwrite the existing entry for `k`,
or add a new one. -/
def CMap.set : CMap → String → CVal → CMap
| .nil, k, v => .cons k v .nil
| .cons k' v' rest, k, v =>
    if k' = k then .cons k' v rest else .cons k' v' (rest.set k v)

/-- Whether the map has an entry under key `k`. -/
def CMap.hasKey : CMap → String → Bool
| .nil, _ => false
| .cons k' _ rest, k => k' = k || rest.hasKey k

/-- `len(m) == 0` (equivalently, in `fillClaims` / `parseClaimsCaddyfile`,
whether the out-parameter would have been left `nil`). -/
def CMap.isEmpty : CMap → Bool
| .nil => true
| .cons _ _ _ => false

mutual

/-- Go maps cannot hold duplicate keys; a faithfully embedded
`jwt.MapClaims` tree has unique keys at every level. -/
def UniqKeys : CMap → Bool
| .nil => true
| .cons k v rest => !rest.hasKey k && UniqVal v && UniqKeys rest

/-- Key uniqueness inside a single value (recursing into nested maps). -/
def UniqVal : CVal → Bool
| .str _ => true
| .nested m => UniqKeys m
| .scalar _ => true

end

/-!
`fillClaims` (signer.go:99-128).  The per-request substitution context
(`*caddy.Replacer`) is embedded as the opaque function
`repl : String → String`, standing for `repl.ReplaceAll(s, "")`
(unresolved placeholders become the empty string).  The Go function
builds a fresh map `cs` and stores it into the out-parameter only when
non-empty; the nested branch observes exactly that emptiness through the
`nested != nil` test, which is what `fillValue`'s `.nil` match captures.
-/

mutual

/-- One iteration of the `switch` in `fillClaims`: the value stored for key
`k` (`some`), or `none` when the key is pruned. -/
def fillValue (repl : String → String) : CVal → Option CVal
| .str s =>
    let e := repl s
    if e = "" then none else some (.str e)
| .nested m =>
    match fillClaims repl m with
    | .nil => none
    | n => some (.nested n)
| .scalar sc => some (.scalar sc)

/-- The map `cs` built by the loop of `fillClaims` over the template `pat`. -/
def fillClaims (repl : String → String) : CMap → CMap
| .nil => .nil
| .cons k v rest =>
    match fillValue repl v with
    | some w => .cons k w (fillClaims repl rest)
    | none => fillClaims repl rest

end

/-- `cs["iat"] = now.Unix(); cs["exp"] = now.Add(dur).Unix()`
(signer.go:83-85).  Times are in nanoseconds (`time.Time` instants and
`time.Duration` are both nanosecond counts); `Unix()` is the floor of the
nanosecond count divided by 10^9, which for the positive divisor is `Int`
division `/` (Euclidean = floor here). -/
def issueClaims (cs : CMap) (now dur : Int) : CMap :=
  (cs.set "iat" (.scalar (.i (now / 1000000000)))).set
    "exp" (.scalar (.i ((now + dur) / 1000000000)))

/-!
`ServeHTTP` (signer.go:52-97).  The handler is embedded as a pure function
of: the configuration (`JwtSigner`), the request's substitution context
`repl`, the external duration parser (`time.ParseDuration`, standard
library, embedded opaquely as `String → Option Int` returning
nanoseconds), the external signing routine (`(*jwt.Token).SignedString`,
embedded opaquely as `CMap → String → Option String`), and the current
time `now` in nanoseconds.  Its observable outcome is the list of values
published into the replacer (`repl.Set`), the error returned (if any),
and whether control was handed to the next handler.
-/

/-- The configuration fields of the module (`JwtSigner` struct). -/
structure JwtSigner where
  Dur : String
  Secret : String
  Claims : CMap

/-- Observable outcome of one `ServeHTTP` call: values published via
`repl.Set`, the returned error, and whether `next.ServeHTTP` ran. -/
structure ServeResult where
  published : List (String × String)
  err : Option String
  next : Bool

/-- `ServeHTTP` (signer.go:52-97).  The Go code validates `dur` and
`secret` by ranging over a two-entry map (iteration order immaterial:
an error is returned iff either is empty); here the two checks are
sequenced. -/
def serveHTTP (s : JwtSigner) (repl : String → String)
    (parseDuration : String → Option Int)
    (sign : CMap → String → Option String) (now : Int) : ServeResult :=
  let durStr := repl s.Dur
  let secret := repl s.Secret
  if durStr = "" then
    ⟨[], some "required parameter empty after replacements: dur", false⟩
  else if secret = "" then
    ⟨[], some "required parameter empty after replacements: secret", false⟩
  else
    match parseDuration durStr with
    | none => ⟨[], some ("invalid duration: " ++ durStr), false⟩
    | some dur =>
      let cs := issueClaims (fillClaims repl s.Claims) now dur
      match sign cs secret with
      | none => ⟨[], some "token signing error", false⟩
      | some tok => ⟨[("http.jwt_signer.digest_str", tok)], none, true⟩

/-!
`parseClaimsCaddyfile` (signer.go:151-192).  The dispenser's token stream
for one claims block is embedded structurally: each entry is either a
same-line `key value...` leaf (`d.Args` succeeds, possibly with excess
arguments caught by `d.NextArg`) or a `key { ... }` nested block
(`d.Args` fails and the recursive call consumes the block; a leaf with no
value at all behaves identically to an empty block: the recursive call
finds nothing, leaves the out-parameter `nil`, and the "no value" error
fires).  A `.leaf k []` entry therefore embeds both `key` alone and
`key { }`. -/
inductive RawEntry where
| leaf (key : String) (args : List String)
| block (key : String) (entries : List RawEntry)

/-- The recursive worker of `parseClaimsCaddyfile`: `acc` is the map `cs`
built so far by the `for` loop (Go map assignment = `CMap.set`). -/
def parseClaimsAux : CMap → List RawEntry → Except String CMap
| acc, [] => .ok acc
| acc, .leaf key args :: rest =>
    if key = "" then .error "malformed claims: no key found"
    else
      match args with
      | [] => .error ("mailformed claim " ++ key ++ ": no value")
      | [val] =>
          if val = "" then .error ("malformed claim " ++ key ++ ": value is empty")
          else parseClaimsAux (acc.set key (.str val)) rest
      | val :: _ :: _ =>
          if val = "" then .error ("malformed claim " ++ key ++ ": value is empty")
          else .error ("too many arguments after key: " ++ key)
| acc, .block key entries :: rest =>
    if key = "" then .error "malformed claims: no key found"
    else
      match parseClaimsAux .nil entries with
      | .error e => .error ("nested under key " ++ key ++ ": " ++ e)
      | .ok .nil => .error ("mailformed claim " ++ key ++ ": no value")
      | .ok m => parseClaimsAux (acc.set key (.nested m)) rest

/-- `parseClaimsCaddyfile` (signer.go:151-192): parse a claims block into
a claim template. -/
def parseClaimsCaddyfile (entries : List RawEntry) : Except String CMap :=
  parseClaimsAux .nil entries

/-!
Token issuance (signer.go:87-89).  `jwt.NewWithClaims(SigningMethodHS256,
cs).SignedString([]byte(secret))` is external library code; the spec
describes it only at its interface: a compact token
`seg(header) "." seg(json(claims)) "." seg(mac(secret, signing input))`
with a fixed header, deterministic in its inputs.  The pieces below are
modelled from the spec at that granularity:

* `segEnc` — Modelled from the spec: the library's segment encoding
  (base64url).  What matters for the stated properties is that it is
  injective and produces no `'.'`; it is modelled as fixed-width
  hexadecimal over the code points.
* `jsonVal`/`jsonEntries`/`jsonCMap` — Modelled from the spec: the
  library's JSON marshalling of the claims object (string escaping and
  Go's map-key ordering are not modelled; entries are emitted in
  association-list order, with integers in decimal as `encoding/json`
  prints them).
* the MAC itself stays an opaque parameter
  `mac : String → List Char → List Char` (HMAC-SHA256 keyed by the
  secret over the signing input).
-/

/-- One base-16 digit character (only ever applied to values `< 16`). -/
def hexDigitChar : Nat → Char
| 0 => '0' | 1 => '1' | 2 => '2' | 3 => '3'
| 4 => '4' | 5 => '5' | 6 => '6' | 7 => '7'
| 8 => '8' | 9 => '9' | 10 => 'a' | 11 => 'b'
| 12 => 'c' | 13 => 'd' | 14 => 'e' | _ => 'f'

/-- Decimal value of a base-16 digit character. -/
def hexDigitVal : Char → Nat
| '0' => 0 | '1' => 1 | '2' => 2 | '3' => 3
| '4' => 4 | '5' => 5 | '6' => 6 | '7' => 7
| '8' => 8 | '9' => 9 | 'a' => 10 | 'b' => 11
| 'c' => 12 | 'd' => 13 | 'e' => 14 | _ => 15

/-- Fixed-width (6 hex digits) rendering of a value `< 16^6`; every
Unicode code point fits. -/
def hex6 (n : Nat) : List Char :=
  [hexDigitChar (n / 1048576 % 16), hexDigitChar (n / 65536 % 16),
   hexDigitChar (n / 4096 % 16), hexDigitChar (n / 256 % 16),
   hexDigitChar (n / 16 % 16), hexDigitChar (n % 16)]

/-- Modelled from the spec: the token's segment encoding (base64url in
the external JWT library), an injective, dot-free encoding of a byte
(here: character) sequence. -/
def segEnc (l : List Char) : List Char := l.flatMap (fun c => hex6 c.toNat)

/-- One base-10 digit character (only ever applied to values `< 10`). -/
def digitChar : Nat → Char
| 0 => '0' | 1 => '1' | 2 => '2' | 3 => '3' | 4 => '4'
| 5 => '5' | 6 => '6' | 7 => '7' | 8 => '8' | _ => '9'

/-- Decimal value of a base-10 digit character. -/
def digitVal : Char → Nat
| '0' => 0 | '1' => 1 | '2' => 2 | '3' => 3 | '4' => 4
| '5' => 5 | '6' => 6 | '7' => 7 | '8' => 8 | _ => 9

/-- Decimal rendering of a natural number, as `encoding/json` prints
integers. -/
def natRepr (n : Nat) : List Char :=
  if _h : n < 10 then [digitChar n]
  else natRepr (n / 10) ++ [digitChar (n % 10)]
decreasing_by exact Nat.div_lt_self (by omega) (by omega)

/-- Decimal rendering of an integer (minus sign plus digits). -/
def intRepr (i : Int) : List Char :=
  if i < 0 then '-' :: natRepr (-i).toNat else natRepr i.toNat

mutual

/-- Modelled from the spec: JSON rendering of one claims value (see the
module comment above for the granularity). -/
def jsonVal : CVal → List Char
| .str s => '"' :: s.data ++ ['"']
| .nested m => '{' :: jsonEntries m ++ ['}']
| .scalar (.b true) => ['t', 'r', 'u', 'e']
| .scalar (.b false) => ['f', 'a', 'l', 's', 'e']
| .scalar (.i n) => intRepr n

/-- Comma-separated `"key":value` list of a claims map. -/
def jsonEntries : CMap → List Char
| .nil => []
| .cons k v .nil => '"' :: k.data ++ '"' :: ':' :: jsonVal v
| .cons k v (.cons k' v' rest) =>
    ('"' :: k.data ++ '"' :: ':' :: jsonVal v)
      ++ ',' :: jsonEntries (.cons k' v' rest)

end

/-- JSON rendering of a whole claims map. -/
def jsonCMap (m : CMap) : List Char := '{' :: jsonEntries m ++ ['}']

/-- The fixed HS256 JWT header `{"alg":"HS256","typ":"JWT"}`. -/
def headerJson : List Char :=
  "\x7b\x22alg\x22:\x22HS256\x22,\x22typ\x22:\x22JWT\x22\x7d".data

/-- `(*jwt.Token).SigningString()`: encoded header, dot, encoded claims. -/
def signingInput (cs : CMap) : List Char :=
  segEnc headerJson ++ '.' :: segEnc (jsonCMap cs)

/-- `(*jwt.Token).SignedString(key)`: the signing input, a dot, and the
encoded MAC of the signing input under the secret.  The MAC (HMAC-SHA256)
is the opaque parameter `mac`. -/
def signedString (mac : String → List Char → List Char) (cs : CMap)
    (secret : String) : String :=
  String.mk (signingInput cs ++ '.' :: segEnc (mac secret (signingInput cs)))

/-- Token issuance as performed by `ServeHTTP` (signer.go:80-89): expand
claims are given, inject `iat`/`exp` for `now` and `dur` (nanoseconds),
sign with the secret. -/
def issueToken (mac : String → List Char → List Char) (cs : CMap)
    (secret : String) (now dur : Int) : String :=
  signedString mac (issueClaims cs now dur) secret

/-!
`parseClaimsCaddyfile` well-formedness, mirroring §4.1 of the spec: a
well-formed entry is `key value` with both non-empty, or `key { ... }`
with a non-empty well-formed block.
-/

mutual

/-- A single well-formed claims entry. -/
def WfEntry : RawEntry → Bool
| .leaf k args =>
    !(k = "") && (match args with | [v] => !(v = "") | _ => false)
| .block k es => !(k = "") && !es.isEmpty && WfEntries es

/-- All entries well-formed (at every depth). -/
def WfEntries : List RawEntry → Bool
| [] => true
| e :: rest => WfEntry e && WfEntries rest

end

/-- The entry has an empty key name. -/
def EmptyKeyEntry : RawEntry → Bool
| .leaf k _ => k = ""
| .block k _ => k = ""

/-- The entry is declared with no value and no non-empty nested block. -/
def NoValueEntry : RawEntry → Bool
| .leaf _ args => args.isEmpty
| .block _ es => es.isEmpty

/-- The entry has too many positional values on its line. -/
def TooManyArgsEntry : RawEntry → Bool
| .leaf _ args => 1 < args.length
| .block _ _ => false

/-- Some entry, at any depth, satisfies `p`. -/
def ContainsEntry (p : RawEntry → Bool) : List RawEntry → Bool
| [] => false
| e :: rest =>
    p e || (match e with
            | .block _ es => ContainsEntry p es
            | .leaf _ _ => false)
      || ContainsEntry p rest

/-- `Except.isOk` specialised to the parser's result type. -/
def resOk : Except String CMap → Bool
| .ok _ => true
| .error _ => false

mutual

/-- Invariant of expanded Claims Objects: no empty-string values and no
empty nested maps, at any depth. -/
def GoodVal : CVal → Bool
| .str s => !(s = "")
| .nested m => !m.isEmpty && GoodMap m
| .scalar _ => true

/-- `GoodVal` for every value of the map. -/
def GoodMap : CMap → Bool
| .nil => true
| .cons _ v rest => GoodVal v && GoodMap rest

end

mutual

/-- The value contains no non-string scalar anywhere. -/
def NoScalarVal : CVal → Bool
| .str _ => true
| .nested m => NoScalarMap m
| .scalar _ => false

/-- `NoScalarVal` for every value of the map. -/
def NoScalarMap : CMap → Bool
| .nil => true
| .cons _ v rest => NoScalarVal v && NoScalarMap rest

end

mutual

/-- Every string leaf of the value expands to the empty string under
`repl` (scalar leaves are ignored: they are not string leaves). -/
def AllStrEmptyVal (repl : String → String) : CVal → Bool
| .str s => repl s = ""
| .nested m => AllStrEmptyMap repl m
| .scalar _ => true

/-- `AllStrEmptyVal` at every entry. -/
def AllStrEmptyMap (repl : String → String) : CMap → Bool
| .nil => true
| .cons _ v rest => AllStrEmptyVal repl v && AllStrEmptyMap repl rest

end

mutual

/-- Every leaf of the value is a string leaf expanding to the empty
string under `repl` (a scalar leaf falsifies this). -/
def AllLeavesEmptyVal (repl : String → String) : CVal → Bool
| .str s => repl s = ""
| .nested m => AllLeavesEmptyMap repl m
| .scalar _ => false

/-- `AllLeavesEmptyVal` at every entry. -/
def AllLeavesEmptyMap (repl : String → String) : CMap → Bool
| .nil => true
| .cons _ v rest => AllLeavesEmptyVal repl v && AllLeavesEmptyMap repl rest

end

/-- A key absent from a map looks up to `none`. -/
theorem lookup_none_of_hasKey_false :
    ∀ (m : CMap) (k : String), m.hasKey k = false → m.lookup k = none
| .nil, _, _ => rfl
| .cons k' v rest, k, h => by
    unfold CMap.hasKey at h
    unfold CMap.lookup
    simp only [Bool.or_eq_false_iff, decide_eq_false_iff_not] at h
    simp only [h.1, if_false]
    exact lookup_none_of_hasKey_false rest k h.2

/-- `fillClaims` never invents keys: every key of the output already
keyed the template. -/
theorem hasKey_of_fillClaims_hasKey (repl : String → String) :
    ∀ (m : CMap) (k : String),
      (fillClaims repl m).hasKey k = true → m.hasKey k = true
| .nil, k, h => by simpa [fillClaims] using h
| .cons k' v rest, k, h => by
    unfold fillClaims at h
    unfold CMap.hasKey
    rcases hv : fillValue repl v with _ | w <;> rw [hv] at h
    · have := hasKey_of_fillClaims_hasKey repl rest k h
      simp [this]
    · unfold CMap.hasKey at h
      simp only [Bool.or_eq_true, decide_eq_true_eq] at h ⊢
      rcases h with h | h
      · exact Or.inl h
      · exact Or.inr (hasKey_of_fillClaims_hasKey repl rest k h)

/-- What the expansion does at a string leaf, as seen through `lookup`:
keep the expanded string when non-empty, drop the key when empty. -/
theorem fillClaims_lookup_str (repl : String → String) :
    ∀ (pat : CMap), UniqKeys pat = true → ∀ (k s : String),
      pat.lookup k = some (.str s) →
      (fillClaims repl pat).lookup k =
        if repl s = "" then none else some (.str (repl s))
| .nil, _, k, s, h => by simp [CMap.lookup] at h
| .cons k' v rest, hu, k, s, h => by
    unfold UniqKeys at hu
    simp only [Bool.and_eq_true, Bool.not_eq_true'] at hu
    unfold CMap.lookup at h
    by_cases hk : k' = k
    · rw [if_pos hk] at h
      cases h
      by_cases he : repl s = ""
      · have hnk : rest.hasKey k = false := hk ▸ hu.1.1
        have hnone : (fillClaims repl rest).hasKey k = false := by
          rcases hfk : (fillClaims repl rest).hasKey k with _ | _
          · rfl
          · rw [hasKey_of_fillClaims_hasKey repl rest k hfk] at hnk
            exact hnk
        have hstep : fillClaims repl (CMap.cons k' (.str s) rest)
            = fillClaims repl rest := by
          simp [fillClaims, fillValue, he]
        rw [if_pos he, hstep]
        exact lookup_none_of_hasKey_false _ _ hnone
      · have hstep : fillClaims repl (CMap.cons k' (.str s) rest)
            = .cons k' (.str (repl s)) (fillClaims repl rest) := by
          simp [fillClaims, fillValue, he]
        rw [if_neg he, hstep]
        simp [CMap.lookup, hk]
    · rw [if_neg hk] at h
      have ih := fillClaims_lookup_str repl rest hu.2 k s h
      unfold fillClaims
      rcases hv : fillValue repl v with _ | w
      · exact ih
      · simpa [CMap.lookup, hk] using ih

/-- A scalar leaf survives expansion untouched (first matching entry is
kept in place, whatever `repl` does). -/
theorem fillClaims_lookup_scalar (repl : String → String) :
    ∀ (pat : CMap) (k : String) (sc : Scal),
      pat.lookup k = some (.scalar sc) →
      (fillClaims repl pat).lookup k = some (.scalar sc)
| .nil, k, sc, h => by simp [CMap.lookup] at h
| .cons k' v rest, k, sc, h => by
    unfold CMap.lookup at h
    by_cases hk : k' = k
    · rw [if_pos hk] at h
      cases h
      simp [fillClaims, fillValue, CMap.lookup, hk]
    · rw [if_neg hk] at h
      have ih := fillClaims_lookup_scalar repl rest k sc h
      unfold fillClaims
      rcases hv : fillValue repl v with _ | w
      · exact ih
      · simpa [CMap.lookup, hk] using ih

/-- The nested branch of `fillValue`, spelled with `isEmpty`. -/
theorem fillValue_nested (repl : String → String) (m : CMap) :
    fillValue repl (.nested m) =
      if (fillClaims repl m).isEmpty then none
      else some (.nested (fillClaims repl m)) := by
  unfold fillValue
  rcases h : fillClaims repl m with _ | ⟨k, v, rest⟩ <;> simp [CMap.isEmpty]

/-- What the expansion does at a nested node, as seen through `lookup`:
drop the key when the recursively expanded child map is empty, keep the
non-empty expanded child map otherwise. -/
theorem fillClaims_lookup_nested (repl : String → String) :
    ∀ (pat : CMap), UniqKeys pat = true → ∀ (k : String) (m : CMap),
      pat.lookup k = some (.nested m) →
      (fillClaims repl pat).lookup k =
        if (fillClaims repl m).isEmpty then none
        else some (.nested (fillClaims repl m))
| .nil, _, k, m, h => by simp [CMap.lookup] at h
| .cons k' v rest, hu, k, m, h => by
    unfold UniqKeys at hu
    simp only [Bool.and_eq_true, Bool.not_eq_true'] at hu
    unfold CMap.lookup at h
    by_cases hk : k' = k
    · rw [if_pos hk] at h
      cases h
      by_cases he : (fillClaims repl m).isEmpty = true
      · have hnk : rest.hasKey k = false := hk ▸ hu.1.1
        have hnone : (fillClaims repl rest).hasKey k = false := by
          rcases hfk : (fillClaims repl rest).hasKey k with _ | _
          · rfl
          · rw [hasKey_of_fillClaims_hasKey repl rest k hfk] at hnk
            exact hnk
        have hstep : fillClaims repl (CMap.cons k' (.nested m) rest)
            = fillClaims repl rest := by
          simp [fillClaims, fillValue_nested, he]
        rw [if_pos he, hstep]
        exact lookup_none_of_hasKey_false _ _ hnone
      · have hstep : fillClaims repl (CMap.cons k' (.nested m) rest)
            = .cons k' (.nested (fillClaims repl m)) (fillClaims repl rest) := by
          simp [fillClaims, fillValue_nested, he]
        rw [if_neg he, hstep]
        simp [CMap.lookup, hk]
    · rw [if_neg hk] at h
      have ih := fillClaims_lookup_nested repl rest hu.2 k m h
      rw [fillClaims]
      rcases hv : fillValue repl v with _ | w
      · exact ih
      · simpa [CMap.lookup, hk] using ih

mutual

/-- If every leaf below a value is a string leaf expanding to empty, the
value is pruned. -/
theorem fillValue_none_of_allLeavesEmpty (repl : String → String) :
    ∀ (v : CVal), AllLeavesEmptyVal repl v = true → fillValue repl v = none
| .str s, h => by
    unfold AllLeavesEmptyVal at h
    simp only [decide_eq_true_eq] at h
    simp [fillValue, h]
| .nested m, h => by
    unfold AllLeavesEmptyVal at h
    rw [fillValue_nested, fillClaims_nil_of_allLeavesEmpty repl m h]
    rfl
| .scalar sc, h => by simp [AllLeavesEmptyVal] at h

/-- If every leaf of the template is a string leaf expanding to empty,
the whole expansion is the empty map (emptiness propagates to the root). -/
theorem fillClaims_nil_of_allLeavesEmpty (repl : String → String) :
    ∀ (pat : CMap), AllLeavesEmptyMap repl pat = true →
      fillClaims repl pat = .nil
| .nil, _ => rfl
| .cons k v rest, h => by
    unfold AllLeavesEmptyMap at h
    simp only [Bool.and_eq_true] at h
    unfold fillClaims
    rw [fillValue_none_of_allLeavesEmpty repl v h.1]
    exact fillClaims_nil_of_allLeavesEmpty repl rest h.2

end

mutual

/-- Any value surviving expansion satisfies the output invariant: it is a
non-empty string, a non-empty recursively-good map, or a scalar. -/
theorem goodVal_fillValue (repl : String → String) :
    ∀ (v : CVal) (w : CVal), fillValue repl v = some w → GoodVal w = true
| .str s, w, h => by
    unfold fillValue at h
    by_cases he : repl s = ""
    · simp [he] at h
    · simp only [he, if_false] at h
      cases h
      simpa [GoodVal] using he
| .nested m, w, h => by
    rw [fillValue_nested] at h
    by_cases he : (fillClaims repl m).isEmpty = true
    · simp [he] at h
    · simp only [he, Bool.false_eq_true, if_false, Option.some.injEq] at h
      cases h
      have := goodMap_fillClaims repl m
      simp only [GoodVal, Bool.and_eq_true, Bool.not_eq_true']
      exact ⟨by simpa using he, this⟩
| .scalar sc, w, h => by
    unfold fillValue at h
    cases h
    rfl

/-- The expansion invariant: every value in `fillClaims repl pat`, at
every nesting level, is a non-empty string, a non-empty nested map, or a
scalar. -/
theorem goodMap_fillClaims (repl : String → String) :
    ∀ (pat : CMap), GoodMap (fillClaims repl pat) = true
| .nil => rfl
| .cons k v rest => by
    unfold fillClaims
    rcases hv : fillValue repl v with _ | w
    · exact goodMap_fillClaims repl rest
    · unfold GoodMap
      simp only [Bool.and_eq_true]
      exact ⟨goodVal_fillValue repl v w hv, goodMap_fillClaims repl rest⟩

end

/-- Scalars in the output come verbatim from the template: under unique
keys, a scalar found in the expansion sits at the same key in the
template. -/
theorem fillClaims_scalar_source (repl : String → String) :
    ∀ (pat : CMap), UniqKeys pat = true → ∀ (k : String) (sc : Scal),
      (fillClaims repl pat).lookup k = some (.scalar sc) →
      pat.lookup k = some (.scalar sc)
| .nil, _, k, sc, h => by simp [fillClaims, CMap.lookup] at h
| .cons k' v rest, hu, k, sc, h => by
    unfold UniqKeys at hu
    simp only [Bool.and_eq_true, Bool.not_eq_true'] at hu
    unfold fillClaims at h
    unfold CMap.lookup
    by_cases hk : k' = k
    · rcases hv : fillValue repl v with _ | w <;> rw [hv] at h
      · have hnk : rest.hasKey k = false := hk ▸ hu.1.1
        have hnone : (fillClaims repl rest).hasKey k = false := by
          rcases hfk : (fillClaims repl rest).hasKey k with _ | _
          · rfl
          · rw [hasKey_of_fillClaims_hasKey repl rest k hfk] at hnk
            exact hnk
        rw [lookup_none_of_hasKey_false _ _ hnone] at h
        exact absurd h (by simp)
      · rw [if_pos hk]
        unfold CMap.lookup at h
        rw [if_pos hk] at h
        cases h
        rcases v with s | m | sc'
        · unfold fillValue at hv
          by_cases he : repl s = "" <;> simp [he] at hv
        · rw [fillValue_nested] at hv
          by_cases he : (fillClaims repl m).isEmpty = true <;> simp [he] at hv
        · unfold fillValue at hv
          cases hv
          rfl
    · rw [if_neg hk]
      rcases hv : fillValue repl v with _ | w <;> rw [hv] at h
      · exact fillClaims_scalar_source repl rest hu.2 k sc h
      · unfold CMap.lookup at h
        rw [if_neg hk] at h
        exact fillClaims_scalar_source repl rest hu.2 k sc h

/-! Facts about the segment encoding. -/

/-- Every Unicode code point is below `16^6`. -/
theorem charToNat_lt (c : Char) : c.toNat < 16777216 := by
  rcases c.valid with h | h
  · exact Nat.lt_trans h (by norm_num)
  · exact Nat.lt_trans h.2 (by norm_num)

/-- Characters with equal code points are equal. -/
theorem charToNat_injective (c d : Char) (h : c.toNat = d.toNat) : c = d := by
  rw [← Char.ofNat_toNat c, ← Char.ofNat_toNat d, h]

/-- Hex digit characters are never the dot. -/
theorem hexDigitChar_ne_dot (n : Nat) : hexDigitChar n ≠ '.' := by
  unfold hexDigitChar
  split <;> decide

/-- Round trip for hex digits. -/
theorem hexDigitVal_hexDigitChar (n : Nat) (h : n < 16) :
    hexDigitVal (hexDigitChar n) = n := by
  interval_cases n <;> rfl

/-- No dot occurs in a fixed-width hex rendering. -/
theorem ne_dot_of_mem_hex6 (n : Nat) (c : Char) (hc : c ∈ hex6 n) : c ≠ '.' := by
  simp only [hex6, List.mem_cons, List.not_mem_nil, or_false] at hc
  rcases hc with h | h | h | h | h | h <;> exact h ▸ hexDigitChar_ne_dot _

/-- The fixed-width hex rendering is injective below `16^6`. -/
theorem hex6_inj (m n : Nat) (hm : m < 16777216) (hn : n < 16777216)
    (h : hex6 m = hex6 n) : m = n := by
  simp only [hex6, List.cons.injEq, and_true] at h
  obtain ⟨h1, h2, h3, h4, h5, h6⟩ := h
  have e1 := (hexDigitVal_hexDigitChar _ (Nat.mod_lt _ (by norm_num))).symm.trans
    ((congrArg hexDigitVal h1).trans (hexDigitVal_hexDigitChar _ (Nat.mod_lt _ (by norm_num))))
  have e2 := (hexDigitVal_hexDigitChar _ (Nat.mod_lt _ (by norm_num))).symm.trans
    ((congrArg hexDigitVal h2).trans (hexDigitVal_hexDigitChar _ (Nat.mod_lt _ (by norm_num))))
  have e3 := (hexDigitVal_hexDigitChar _ (Nat.mod_lt _ (by norm_num))).symm.trans
    ((congrArg hexDigitVal h3).trans (hexDigitVal_hexDigitChar _ (Nat.mod_lt _ (by norm_num))))
  have e4 := (hexDigitVal_hexDigitChar _ (Nat.mod_lt _ (by norm_num))).symm.trans
    ((congrArg hexDigitVal h4).trans (hexDigitVal_hexDigitChar _ (Nat.mod_lt _ (by norm_num))))
  have e5 := (hexDigitVal_hexDigitChar _ (Nat.mod_lt _ (by norm_num))).symm.trans
    ((congrArg hexDigitVal h5).trans (hexDigitVal_hexDigitChar _ (Nat.mod_lt _ (by norm_num))))
  have e6 := (hexDigitVal_hexDigitChar _ (Nat.mod_lt _ (by norm_num))).symm.trans
    ((congrArg hexDigitVal h6).trans (hexDigitVal_hexDigitChar _ (Nat.mod_lt _ (by norm_num))))
  omega

/-- The segment encoding contains no dot. -/
theorem not_dot_mem_segEnc (l : List Char) : '.' ∉ segEnc l := by
  intro h
  simp only [segEnc, List.mem_flatMap] at h
  obtain ⟨c, _, hmem⟩ := h
  exact ne_dot_of_mem_hex6 _ _ hmem rfl

/-- The segment encoding is injective. -/
theorem segEnc_inj : ∀ (l1 l2 : List Char), segEnc l1 = segEnc l2 → l1 = l2
| [], [], _ => rfl
| [], c :: t, h => by simp [segEnc, hex6] at h
| c :: t, [], h => by simp [segEnc, hex6] at h
| c :: t, c' :: t', h => by
    simp only [segEnc, List.flatMap_cons] at h
    have hlen : (hex6 c.toNat).length = (hex6 c'.toNat).length := rfl
    obtain ⟨hhd, htl⟩ := List.append_inj h hlen
    have hc : c = c' := charToNat_injective _ _
      (hex6_inj _ _ (charToNat_lt c) (charToNat_lt c') hhd)
    have ht : t = t' := segEnc_inj t t' htl
    rw [hc, ht]

/-- A string with a distinguished separator not occurring in the part
before it splits uniquely at that separator. -/
theorem splitDot : ∀ (A1 : List Char), '.' ∉ A1 → ∀ (A2 : List Char), '.' ∉ A2 →
    ∀ (C1 C2 : List Char), A1 ++ '.' :: C1 = A2 ++ '.' :: C2 → A1 = A2 ∧ C1 = C2
| [], _, [], _, C1, C2, h => by
    simp only [List.nil_append, List.cons.injEq] at h
    exact ⟨rfl, h.2⟩
| [], h1, a :: t, h2, C1, C2, h => by
    simp only [List.nil_append, List.cons_append, List.cons.injEq] at h
    exact absurd (h.1 ▸ List.mem_cons_self a t) h2
| a :: t, h1, [], h2, C1, C2, h => by
    simp only [List.nil_append, List.cons_append, List.cons.injEq] at h
    exact absurd (h.1.symm ▸ List.mem_cons_self a t) h1
| a :: t, h1, a' :: t', h2, C1, C2, h => by
    simp only [List.cons_append, List.cons.injEq] at h
    have ih := splitDot t (fun hm => h1 (List.mem_cons_of_mem a hm)) t'
      (fun hm => h2 (List.mem_cons_of_mem a' hm)) C1 C2 h.2
    exact ⟨by rw [h.1, ih.1], ih.2⟩

/-! Facts about decimal rendering. -/

/-- Round trip for decimal digits. -/
theorem digitVal_digitChar (n : Nat) (h : n < 10) : digitVal (digitChar n) = n := by
  interval_cases n <;> rfl

/-- Decimal digit characters are never the minus sign. -/
theorem digitChar_ne_minus (n : Nat) : digitChar n ≠ '-' := by
  unfold digitChar
  split <;> decide

/-- Evaluating the decimal rendering from any accumulator. -/
theorem foldl_natRepr (n : Nat) : ∀ (a : Nat),
    (natRepr n).foldl (fun acc c => acc * 10 + digitVal c) a
      = a * 10 ^ (natRepr n).length + n := by
  induction n using natRepr.induct with
  | case1 n h =>
      intro a
      rw [natRepr]
      simp [h, digitVal_digitChar n h]
  | case2 n h ih =>
      intro a
      rw [natRepr]
      simp only [h, dif_neg, not_false_iff, List.foldl_append, List.foldl_cons,
        List.foldl_nil, List.length_append, List.length_singleton]
      rw [ih a, digitVal_digitChar _ (Nat.mod_lt _ (by omega)), Nat.pow_succ]
      have hstep : (a * 10 ^ (natRepr (n / 10)).length + n / 10) * 10
          = a * (10 ^ (natRepr (n / 10)).length * 10) + n / 10 * 10 := by ring
      rw [hstep, Nat.add_assoc]
      congr 1
      omega

/-- Decimal rendering of naturals is injective. -/
theorem natRepr_inj (m n : Nat) (h : natRepr m = natRepr n) : m = n := by
  have hm := foldl_natRepr m 0
  have hn := foldl_natRepr n 0
  rw [h] at hm
  omega

/-- The minus sign does not occur in a natural's decimal rendering. -/
theorem minus_not_mem_natRepr (n : Nat) : '-' ∉ natRepr n := by
  induction n using natRepr.induct with
  | case1 n h =>
      rw [natRepr]
      simp only [h, dif_pos, List.mem_singleton]
      exact fun hc => digitChar_ne_minus n hc.symm
  | case2 n h ih =>
      rw [natRepr]
      simp only [h, dif_neg, not_false_iff, List.mem_append, List.mem_singleton]
      rintro (hc | hc)
      · exact ih hc
      · exact digitChar_ne_minus _ hc.symm

/-- The decimal rendering is never empty. -/
theorem natRepr_ne_nil (n : Nat) : natRepr n ≠ [] := by
  induction n using natRepr.induct with
  | case1 n h => rw [natRepr]; simp [h]
  | case2 n h ih => rw [natRepr]; simp [h]

/-- Decimal rendering of integers is injective. -/
theorem intRepr_inj (a b : Int) (h : intRepr a = intRepr b) : a = b := by
  unfold intRepr at h
  by_cases ha : a < 0 <;> by_cases hb : b < 0
  · rw [if_pos ha, if_pos hb] at h
    have := natRepr_inj _ _ (List.cons.inj h).2
    omega
  · rw [if_pos ha, if_neg hb] at h
    rcases hr : natRepr b.toNat with _ | ⟨c, t⟩
    · exact absurd hr (natRepr_ne_nil _)
    · rw [hr] at h
      have : '-' ∈ natRepr b.toNat := by
        rw [hr, (List.cons.inj h).1.symm]
        exact List.mem_cons_self _ _
      exact absurd this (minus_not_mem_natRepr _)
  · rw [if_neg ha, if_pos hb] at h
    rcases hr : natRepr a.toNat with _ | ⟨c, t⟩
    · exact absurd hr (natRepr_ne_nil _)
    · rw [hr] at h
      have : '-' ∈ natRepr a.toNat := by
        rw [hr, (List.cons.inj h.symm).1.symm]
        exact List.mem_cons_self _ _
      exact absurd this (minus_not_mem_natRepr _)
  · rw [if_neg ha, if_neg hb] at h
    have := natRepr_inj _ _ h
    omega

/-! Facts about map assignment. -/

/-- Assignment really stores the value: looking up the assigned key. -/
theorem lookup_set_self : ∀ (m : CMap) (k : String) (v : CVal),
    (m.set k v).lookup k = some v
| .nil, k, v => by simp [CMap.set, CMap.lookup]
| .cons k' v' rest, k, v => by
    unfold CMap.set
    by_cases hk : k' = k
    · simp [hk, CMap.lookup]
    · simp only [hk, if_false]
      unfold CMap.lookup
      rw [if_neg hk]
      exact lookup_set_self rest k v

/-- Assignment leaves other keys alone. -/
theorem lookup_set_ne : ∀ (m : CMap) (k k' : String) (v : CVal), k ≠ k' →
    (m.set k v).lookup k' = m.lookup k'
| .nil, k, k', v, hne => by simp [CMap.set, CMap.lookup, hne]
| .cons k0 v0 rest, k, k', v, hne => by
    unfold CMap.set
    by_cases hk : k0 = k
    · subst hk
      simp [CMap.lookup, hne]
    · simp only [hk, if_false]
      unfold CMap.lookup
      by_cases hk' : k0 = k'
      · simp [hk']
      · simp only [hk', if_false]
        exact lookup_set_ne rest k k' v hne

/-- Assignment never yields the empty map. -/
theorem set_ne_nil : ∀ (m : CMap) (k : String) (v : CVal), m.set k v ≠ .nil
| .nil, k, v => by simp [CMap.set]
| .cons k' v' rest, k, v => by
    unfold CMap.set
    by_cases hk : k' = k <;> simp [hk]

/-- `jsonEntries` of a non-empty tail, in its comma-separated shape. -/
theorem jsonEntries_cons_ne_nil (k : String) (v : CVal) (m : CMap) (h : m ≠ .nil) :
    jsonEntries (.cons k v m)
      = ('"' :: k.data ++ '"' :: ':' :: jsonVal v) ++ ',' :: jsonEntries m := by
  rcases m with _ | ⟨k', v', rest⟩
  · exact absurd rfl h
  · rfl

/-- Assigning an integer under key `k` puts its decimal rendering at a
fixed position of the JSON text: the surrounding text does not depend on
the integer. -/
theorem jsonEntries_set_int : ∀ (m : CMap) (k : String), ∃ P S, ∀ (e : Int),
    jsonEntries (m.set k (.scalar (.i e))) = P ++ intRepr e ++ S
| .nil, k => by
    refine ⟨'"' :: k.data ++ ['"', ':'], [], fun e => ?_⟩
    show jsonEntries (.cons k (.scalar (.i e)) .nil) = _
    simp [jsonEntries, jsonVal]
| .cons k' v' rest, k => by
    by_cases hk : k' = k
    · subst hk
      rcases rest with _ | ⟨k2, v2, rest2⟩
      · refine ⟨'"' :: k'.data ++ ['"', ':'], [], fun e => ?_⟩
        show jsonEntries (if k' = k' then _ else _) = _
        rw [if_pos rfl]
        simp [jsonEntries, jsonVal]
      · refine ⟨'"' :: k'.data ++ ['"', ':'],
          ',' :: jsonEntries (.cons k2 v2 rest2), fun e => ?_⟩
        show jsonEntries (if k' = k' then _ else _) = _
        rw [if_pos rfl]
        simp [jsonEntries, jsonVal]
    · obtain ⟨P, S, hPS⟩ := jsonEntries_set_int rest k
      refine ⟨('"' :: k'.data ++ '"' :: ':' :: jsonVal v') ++ ',' :: P, S, fun e => ?_⟩
      show jsonEntries (if k' = k then _ else _) = _
      rw [if_neg hk,
        jsonEntries_cons_ne_nil k' v' (rest.set k (.scalar (.i e))) (set_ne_nil _ _ _),
        hPS e]
      simp

/-- Two issued tokens with distinct `exp` timestamps are distinct
strings, for every MAC: the claims segment of the compact serialization
already differs. -/
theorem issueToken_ne_of_exp_ne (mac : String → List Char → List Char)
    (cs : CMap) (secret : String) (now d1 d2 : Int)
    (hne : (now + d1) / 1000000000 ≠ (now + d2) / 1000000000) :
    issueToken mac cs secret now d1 ≠ issueToken mac cs secret now d2 := by
  intro h
  have hlist : segEnc headerJson
        ++ '.' :: (segEnc (jsonCMap (issueClaims cs now d1))
          ++ '.' :: segEnc (mac secret (signingInput (issueClaims cs now d1))))
      = segEnc headerJson
        ++ '.' :: (segEnc (jsonCMap (issueClaims cs now d2))
          ++ '.' :: segEnc (mac secret (signingInput (issueClaims cs now d2)))) := by
    have hd := congrArg String.data h
    simpa [issueToken, signedString, signingInput, List.append_assoc] using hd
  have h2 := (List.cons.inj (List.append_cancel_left hlist)).2
  obtain ⟨hP, -⟩ := splitDot _ (not_dot_mem_segEnc _) _ (not_dot_mem_segEnc _) _ _ h2
  have hjson := segEnc_inj _ _ hP
  unfold jsonCMap at hjson
  have hent := List.append_cancel_right (List.cons.inj hjson).2
  obtain ⟨P, S, hPS⟩ :=
    jsonEntries_set_int (cs.set "iat" (.scalar (.i (now / 1000000000)))) "exp"
  unfold issueClaims at hent
  rw [hPS ((now + d1) / 1000000000), hPS ((now + d2) / 1000000000),
    List.append_assoc, List.append_assoc] at hent
  have h6 := List.append_cancel_right (List.append_cancel_left hent)
  exact hne (intRepr_inj _ _ h6)

/-! Facts about `parseClaimsCaddyfile`. -/

/-- Unfolding lemma: no entries are well-formed. -/
theorem wfEntries_nil : WfEntries [] = true := by rw [WfEntries.eq_def]

/-- Unfolding lemma for `WfEntries` at a cons cell. -/
theorem wfEntries_cons (e : RawEntry) (rest : List RawEntry) :
    WfEntries (e :: rest) = (WfEntry e && WfEntries rest) := by rw [WfEntries.eq_def]

/-- Unfolding lemma for `WfEntry` at a leaf. -/
theorem wfEntry_leaf (k : String) (args : List String) :
    WfEntry (.leaf k args)
      = (!(k = "") && (match args with | [v] => !(v = "") | _ => false)) := by
  rw [WfEntry.eq_def]

/-- Unfolding lemma for `WfEntry` at a block. -/
theorem wfEntry_block (k : String) (es : List RawEntry) :
    WfEntry (.block k es) = (!(k = "") && !es.isEmpty && WfEntries es) := by
  rw [WfEntry.eq_def]

/-- Unfolding lemma for `ContainsEntry` on no entries. -/
theorem containsEntry_nil (p : RawEntry → Bool) : ContainsEntry p [] = false := by
  rw [ContainsEntry.eq_def]

/-- Unfolding lemma for `ContainsEntry` at a cons cell. -/
theorem containsEntry_cons (p : RawEntry → Bool) (e : RawEntry) (rest : List RawEntry) :
    ContainsEntry p (e :: rest)
      = (p e || (match e with | .block _ es => ContainsEntry p es | .leaf _ _ => false)
          || ContainsEntry p rest) := by
  rw [ContainsEntry.eq_def]

/-- The parser returns an empty map only from an empty accumulator and no
entries (each processed entry assigns a key). -/
theorem parseClaimsAux_ok_nil : ∀ (acc : CMap) (es : List RawEntry),
    parseClaimsAux acc es = .ok .nil → acc = .nil ∧ es = [] := by
  intro acc es
  induction acc, es using parseClaimsAux.induct with
  | case1 acc =>
      intro h
      rw [parseClaimsAux.eq_def] at h
      simp only [Except.ok.injEq] at h
      exact ⟨h, rfl⟩
  | case2 acc args rest =>
      intro h
      rw [parseClaimsAux.eq_def] at h
      simp at h
  | case3 acc key rest hk =>
      intro h
      rw [parseClaimsAux.eq_def] at h
      simp [hk] at h
  | case4 acc key rest hk =>
      intro h
      rw [parseClaimsAux.eq_def] at h
      simp [hk] at h
  | case5 acc key rest hk val hval ih =>
      intro h
      rw [parseClaimsAux.eq_def] at h
      simp only [if_neg hk, if_neg hval] at h
      exact absurd (ih h).1 (set_ne_nil _ _ _)
  | case6 acc key rest hk head tail =>
      intro h
      rw [parseClaimsAux.eq_def] at h
      simp [hk] at h
  | case7 acc key rest hk val head tail hval =>
      intro h
      rw [parseClaimsAux.eq_def] at h
      simp [hk, hval] at h
  | case8 acc entries rest =>
      intro h
      rw [parseClaimsAux.eq_def] at h
      simp at h
  | case9 acc key entries rest hk e herr ihInner =>
      intro h
      rw [parseClaimsAux.eq_def] at h
      simp [hk, herr] at h
  | case10 acc key entries rest hk hnil ihInner =>
      intro h
      rw [parseClaimsAux.eq_def] at h
      simp [hk, hnil] at h
  | case11 acc key entries rest hk m hm hok ihInner ihRest =>
      intro h
      rcases m with _ | ⟨k1, v1, r1⟩
      · exact (hm rfl).elim
      · rw [parseClaimsAux.eq_def] at h
        simp only [if_neg hk, hok] at h
        exact absurd (ihRest h).1 (set_ne_nil _ _ _)

/-- The parser succeeds exactly on well-formed entry lists, whatever has
been accumulated so far. -/
theorem resOk_parseClaimsAux_eq_wf : ∀ (acc : CMap) (es : List RawEntry),
    resOk (parseClaimsAux acc es) = WfEntries es := by
  intro acc es
  induction acc, es using parseClaimsAux.induct with
  | case1 acc =>
      rw [parseClaimsAux.eq_def, wfEntries_nil]
      rfl
  | case2 acc args rest =>
      rw [parseClaimsAux.eq_def, wfEntries_cons, wfEntry_leaf]
      simp [resOk]
  | case3 acc key rest hk =>
      rw [parseClaimsAux.eq_def, wfEntries_cons, wfEntry_leaf]
      simp [resOk, hk]
  | case4 acc key rest hk =>
      rw [parseClaimsAux.eq_def, wfEntries_cons, wfEntry_leaf]
      simp [resOk, hk]
  | case5 acc key rest hk val hval ih =>
      rw [parseClaimsAux.eq_def, wfEntries_cons, wfEntry_leaf]
      simp only [if_neg hk, if_neg hval, ih]
      simp [hk, hval]
  | case6 acc key rest hk head tail =>
      rw [parseClaimsAux.eq_def, wfEntries_cons, wfEntry_leaf]
      simp [resOk, hk]
  | case7 acc key rest hk val head tail hval =>
      rw [parseClaimsAux.eq_def, wfEntries_cons, wfEntry_leaf]
      simp [resOk, hk, hval]
  | case8 acc entries rest =>
      rw [parseClaimsAux.eq_def, wfEntries_cons, wfEntry_block]
      simp [resOk]
  | case9 acc key entries rest hk e herr ihInner =>
      rw [herr] at ihInner
      rw [parseClaimsAux.eq_def, wfEntries_cons, wfEntry_block]
      simp only [if_neg hk, herr]
      simp [resOk, hk, ← ihInner]
  | case10 acc key entries rest hk hnil ihInner =>
      obtain ⟨-, hes⟩ := parseClaimsAux_ok_nil _ _ hnil
      subst hes
      rw [parseClaimsAux.eq_def, wfEntries_cons, wfEntry_block]
      simp only [if_neg hk, hnil]
      simp [resOk]
  | case11 acc key entries rest hk m hm hok ihInner ihRest =>
      rw [hok] at ihInner
      have hne : entries ≠ [] := by
        intro he
        subst he
        rw [parseClaimsAux.eq_def, Except.ok.injEq] at hok
        exact hm hok.symm
      rw [parseClaimsAux.eq_def, wfEntries_cons, wfEntry_block]
      rcases m with _ | ⟨k1, v1, r1⟩
      · exact absurd rfl hm
      · simp only [if_neg hk, hok, ihRest]
        rcases entries with _ | ⟨e0, etail⟩
        · exact absurd rfl hne
        · simp [hk, ← ihInner, resOk]

/-- An entry list containing (at any depth) an entry that falsifies
well-formedness is not well-formed. -/
theorem wfEntries_false_of_contains (p : RawEntry → Bool)
    (hp : ∀ e, p e = true → WfEntry e = false) :
    ∀ (es : List RawEntry), ContainsEntry p es = true → WfEntries es = false
| [], h => by
    rw [containsEntry_nil] at h
    exact absurd h (by simp)
| .leaf k args :: rest, h => by
    rw [containsEntry_cons] at h
    rw [wfEntries_cons]
    simp only [Bool.or_eq_true] at h
    rcases h with (hpe | hin) | hrest
    · rw [hp _ hpe]
      rfl
    · simp at hin
    · rw [wfEntries_false_of_contains p hp rest hrest]
      simp
| .block k es' :: rest, h => by
    rw [containsEntry_cons] at h
    rw [wfEntries_cons]
    simp only [Bool.or_eq_true] at h
    rcases h with (hpe | hin) | hrest
    · rw [hp _ hpe]
      rfl
    · rw [wfEntry_block, wfEntries_false_of_contains p hp es' hin]
      simp
    · rw [wfEntries_false_of_contains p hp rest hrest]
      simp
termination_by es _ => sizeOf es
decreasing_by
  all_goals simp_wf
  all_goals omega

/-- Map assignment preserves scalar-freeness. -/
theorem noScalarMap_set : ∀ (m : CMap) (k : String) (v : CVal),
    NoScalarMap m = true → NoScalarVal v = true → NoScalarMap (m.set k v) = true
| .nil, k, v, _, hv => by simp [CMap.set, NoScalarMap, hv]
| .cons k' v' rest, k, v, hm, hv => by
    unfold NoScalarMap at hm
    simp only [Bool.and_eq_true] at hm
    unfold CMap.set
    by_cases hk : k' = k
    · simp only [hk, if_true, if_pos]
      unfold NoScalarMap
      simp [hv, hm.2]
    · simp only [hk, if_false]
      unfold NoScalarMap
      simp [hm.1, noScalarMap_set rest k v hm.2 hv]

/-- Everything the Caddyfile parser builds is scalar-free. -/
theorem noScalar_parseClaimsAux : ∀ (acc : CMap) (es : List RawEntry),
    NoScalarMap acc = true →
      ∀ m, parseClaimsAux acc es = .ok m → NoScalarMap m = true := by
  intro acc es
  induction acc, es using parseClaimsAux.induct with
  | case1 acc =>
      intro hacc m h
      rw [parseClaimsAux.eq_def] at h
      simp only [Except.ok.injEq] at h
      exact h ▸ hacc
  | case2 acc args rest =>
      intro hacc m h
      rw [parseClaimsAux.eq_def] at h
      simp at h
  | case3 acc key rest hk =>
      intro hacc m h
      rw [parseClaimsAux.eq_def] at h
      simp [hk] at h
  | case4 acc key rest hk =>
      intro hacc m h
      rw [parseClaimsAux.eq_def] at h
      simp [hk] at h
  | case5 acc key rest hk val hval ih =>
      intro hacc m h
      rw [parseClaimsAux.eq_def] at h
      simp only [if_neg hk, if_neg hval] at h
      exact ih (noScalarMap_set acc key (.str val) hacc rfl) m h
  | case6 acc key rest hk head tail =>
      intro hacc m h
      rw [parseClaimsAux.eq_def] at h
      simp [hk] at h
  | case7 acc key rest hk val head tail hval =>
      intro hacc m h
      rw [parseClaimsAux.eq_def] at h
      simp [hk, hval] at h
  | case8 acc entries rest =>
      intro hacc m h
      rw [parseClaimsAux.eq_def] at h
      simp at h
  | case9 acc key entries rest hk e herr ihInner =>
      intro hacc m h
      rw [parseClaimsAux.eq_def] at h
      simp [hk, herr] at h
  | case10 acc key entries rest hk hnil ihInner =>
      intro hacc m h
      rw [parseClaimsAux.eq_def] at h
      simp [hk, hnil] at h
  | case11 acc key entries rest hk mi hm hok ihInner ihRest =>
      intro hacc m h
      rcases mi with _ | ⟨k1, v1, r1⟩
      · exact (hm rfl).elim
      · rw [parseClaimsAux.eq_def] at h
        simp only [if_neg hk, hok] at h
        have hinner : NoScalarMap (CMap.cons k1 v1 r1) = true :=
          ihInner rfl _ hok
        exact ihRest (noScalarMap_set acc key (.nested _) hacc hinner) m h

/-!
The claims.  One theorem per claim, with witnesses instantiating each
hypothesis at concrete inputs, and counterexamples where the claim as
stated fails on the code.
-/

/-- C1: for every claim template and substitution context, and for every
string leaf with key `k` and template string `s` (the theorem applies at
any nesting level, since nested maps are expanded by the same
`fillClaims`): if the context expands `s` to the empty string the
expanded Claims Object does not contain `k` at that level at all, and if
the expansion is non-empty, `k` maps to exactly the expanded string. -/
theorem claim_C1_string_leaf (repl : String → String) (pat : CMap) (k s : String)
    (hu : UniqKeys pat = true) (h : pat.lookup k = some (.str s)) :
    (fillClaims repl pat).lookup k =
      if repl s = "" then none else some (.str (repl s)) :=
  fillClaims_lookup_str repl pat hu k s h

/-- Witness for C1 at a concrete template and context: `{user}` expands
to `alice` and is kept; `{mail}` expands to empty and the key is gone. -/
theorem claim_C1_string_leaf_witness :
    UniqKeys (CMap.cons "sub" (.str "{user}") (.cons "mail" (.str "{mail}") .nil)) = true
    ∧ (CMap.cons "sub" (.str "{user}")
        (.cons "mail" (.str "{mail}") .nil)).lookup "sub" = some (.str "{user}")
    ∧ (CMap.cons "sub" (.str "{user}")
        (.cons "mail" (.str "{mail}") .nil)).lookup "mail" = some (.str "{mail}")
    ∧ (fillClaims (fun s => if s = "{user}" then "alice" else "")
        (CMap.cons "sub" (.str "{user}")
          (.cons "mail" (.str "{mail}") .nil))).lookup "sub" = some (.str "alice")
    ∧ (fillClaims (fun s => if s = "{user}" then "alice" else "")
        (CMap.cons "sub" (.str "{user}")
          (.cons "mail" (.str "{mail}") .nil))).lookup "mail" = none := by
  refine ⟨by decide, by decide, by decide, ?_, ?_⟩
  · exact (claim_C1_string_leaf (fun s => if s = "{user}" then "alice" else "")
      _ "sub" "{user}" (by decide) (by decide)).trans (by decide)
  · exact (claim_C1_string_leaf (fun s => if s = "{user}" then "alice" else "")
      _ "mail" "{mail}" (by decide) (by decide)).trans (by decide)

/-- C2 (amended): for every nested node with key `k`: if the recursive
expansion of its children is empty, `k` is omitted from the parent's
output; if non-empty, `k` maps to that nested object.  Emptiness
propagates recursively to the root: a template all of whose leaves are
string leaves expanding to empty produces the empty Claims Object.  (The
claim as frozen says "every string leaf expands to empty" suffices; a
scalar-only template refutes that, see the counterexample.) -/
theorem claim_C2_nested_pruning (repl : String → String) (pat : CMap)
    (hu : UniqKeys pat = true) :
    (∀ (k : String) (m : CMap), pat.lookup k = some (.nested m) →
      (fillClaims repl pat).lookup k =
        if (fillClaims repl m).isEmpty then none
        else some (.nested (fillClaims repl m)))
    ∧ (AllLeavesEmptyMap repl pat = true → fillClaims repl pat = .nil) :=
  ⟨fun k m h => fillClaims_lookup_nested repl pat hu k m h,
   fun h => fillClaims_nil_of_allLeavesEmpty repl pat h⟩

/-- Counterexample to C2 as frozen: in the template `{flag: true}` every
string leaf (there are none) expands to empty under the context that
sends everything to the empty string, yet the expansion is not the empty
Claims Object — scalar leaves survive. -/
theorem claim_C2_counterexample :
    AllStrEmptyMap (fun _ => "") (CMap.cons "flag" (.scalar (.b true)) .nil) = true
    ∧ fillClaims (fun _ => "") (CMap.cons "flag" (.scalar (.b true)) .nil)
        = CMap.cons "flag" (.scalar (.b true)) .nil
    ∧ CMap.cons "flag" (.scalar (.b true)) .nil ≠ CMap.nil :=
  ⟨rfl, rfl, by decide⟩

/-- Witness for C2 at a concrete input: `{profile: {name: "{name}"}}`
with `{name}` expanding to empty prunes to the empty Claims Object, and
`profile` is absent (not mapped to an empty object). -/
theorem claim_C2_nested_pruning_witness :
    UniqKeys (CMap.cons "profile"
        (.nested (.cons "name" (.str "{name}") .nil)) .nil) = true
    ∧ (CMap.cons "profile" (.nested (.cons "name" (.str "{name}") .nil)) .nil).lookup
        "profile" = some (.nested (.cons "name" (.str "{name}") .nil))
    ∧ AllLeavesEmptyMap (fun _ => "")
        (CMap.cons "profile" (.nested (.cons "name" (.str "{name}") .nil)) .nil) = true
    ∧ (fillClaims (fun _ => "")
        (CMap.cons "profile" (.nested (.cons "name" (.str "{name}") .nil)) .nil)).lookup
        "profile" = none
    ∧ fillClaims (fun _ => "")
        (CMap.cons "profile" (.nested (.cons "name" (.str "{name}") .nil)) .nil)
        = CMap.nil := by
  have h := claim_C2_nested_pruning (fun _ => "")
    (CMap.cons "profile" (.nested (.cons "name" (.str "{name}") .nil)) .nil) (by decide)
  refine ⟨by decide, by decide, rfl, ?_, h.2 rfl⟩
  exact (h.1 "profile" (.cons "name" (.str "{name}") .nil) (by decide)).trans (by decide)

/-- C3 (amended): token issuance injects top-level claims
`iat = Unix(now)` and `exp = Unix(now + d)`, both integer Unix-second
timestamps, overwriting any same-named keys the template expansion
produced; whenever the requested duration is a whole number `secs` of
seconds, `exp - iat = secs`.  (The frozen claim asserts
`exp - iat` equals the duration in seconds for *every* duration; Go
durations are nanoseconds and `Unix()` floors, so sub-second durations
refute it, see the counterexample.) -/
theorem claim_C3_iat_exp (cs : CMap) (now dur : Int) :
    (issueClaims cs now dur).lookup "iat"
      = some (.scalar (.i (now / 1000000000)))
    ∧ (issueClaims cs now dur).lookup "exp"
      = some (.scalar (.i ((now + dur) / 1000000000)))
    ∧ ∀ secs : Int, dur = secs * 1000000000 →
        (now + dur) / 1000000000 - now / 1000000000 = secs := by
  refine ⟨?_, ?_, ?_⟩
  · unfold issueClaims
    rw [lookup_set_ne _ "exp" "iat" _ (by decide), lookup_set_self]
  · unfold issueClaims
    rw [lookup_set_self]
  · intro secs hd
    subst hd
    omega

/-- Counterexample to C3 as frozen: `now = 0.7s`, `d = 1.5s` (both
representable: `time.ParseDuration` accepts `"1500ms"`).  The issued
claims have `iat = 0`, `exp = 2`, so `exp - iat = 2`, which is neither
the exact duration in seconds (1.5) nor its truncation (1). -/
theorem claim_C3_counterexample :
    (issueClaims .nil 700000000 1500000000).lookup "iat" = some (.scalar (.i 0))
    ∧ (issueClaims .nil 700000000 1500000000).lookup "exp" = some (.scalar (.i 2))
    ∧ ((2 : Int) - 0) * 1000000000 ≠ 1500000000
    ∧ (2 : Int) - 0 ≠ 1500000000 / 1000000000 :=
  ⟨by decide, by decide, by decide, by decide⟩

/-- Witness for C3 at the spec's own example: `now = 1000s`,
`d = 15m = 900s`, giving `iat = 1000`, `exp = 1900`, difference `900`. -/
theorem claim_C3_iat_exp_witness :
    (issueClaims .nil 1000000000000 900000000000).lookup "iat"
      = some (.scalar (.i 1000))
    ∧ (issueClaims .nil 1000000000000 900000000000).lookup "exp"
      = some (.scalar (.i 1900))
    ∧ (900000000000 : Int) = 900 * 1000000000
    ∧ (1000000000000 + 900000000000 : Int) / 1000000000
        - 1000000000000 / 1000000000 = 900 := by
  obtain ⟨h1, h2, h3⟩ := claim_C3_iat_exp .nil 1000000000000 900000000000
  exact ⟨h1.trans (by decide), h2.trans (by decide), by decide, h3 900 (by decide)⟩

/-- C4 (amended): token issuance is a pure deterministic function — two
calls with identical claims, secret, now and validFor produce identical
token strings — and two calls with identical claims, secret and now
whose validFor values produce different `exp` timestamps produce
different token strings, for every MAC.  (The frozen claim asserts any
two different validFor values give different tokens; validFor values
that differ by less than the second boundary give the same `exp` and
hence the same token, see the counterexample.) -/
theorem claim_C4_determinism (mac : String → List Char → List Char)
    (cs cs' : CMap) (secret secret' : String) (now now' d1 d1' d2 : Int)
    (hcs : cs' = cs) (hsec : secret' = secret) (hnow : now' = now) (hd : d1' = d1)
    (hne : (now + d1) / 1000000000 ≠ (now + d2) / 1000000000) :
    issueToken mac cs' secret' now' d1' = issueToken mac cs secret now d1
    ∧ issueToken mac cs secret now d1 ≠ issueToken mac cs secret now d2 := by
  subst hcs hsec hnow hd
  exact ⟨rfl, issueToken_ne_of_exp_ne mac _ _ _ _ _ hne⟩

/-- Counterexample to C4 as frozen: validFor of 100ms and 200ms (valid
Go durations) differ, yet with `now = 0` both yield `iat = exp = 0`,
identical claims, and therefore identical tokens. -/
theorem claim_C4_counterexample :
    (100000000 : Int) ≠ 200000000
    ∧ issueToken (fun _ _ => []) .nil "k" 0 100000000
        = issueToken (fun _ _ => []) .nil "k" 0 200000000 := by
  refine ⟨by decide, ?_⟩
  have h : issueClaims .nil 0 100000000 = issueClaims .nil 0 200000000 := by decide
  exact congrArg (fun m => signedString (fun _ _ => []) m "k") h

/-- Witness for C4: durations of 1s and 2s from `now = 0` give `exp`
timestamps 1 and 2, so the tokens differ; identical inputs give the
identical token. -/
theorem claim_C4_determinism_witness :
    ((0 : Int) + 1000000000) / 1000000000 ≠ ((0 : Int) + 2000000000) / 1000000000
    ∧ issueToken (fun _ _ => ['x']) .nil "s" 0 1000000000
        = issueToken (fun _ _ => ['x']) .nil "s" 0 1000000000
    ∧ issueToken (fun _ _ => ['x']) .nil "s" 0 1000000000
        ≠ issueToken (fun _ _ => ['x']) .nil "s" 0 2000000000 := by
  have h := claim_C4_determinism (fun _ _ => ['x']) .nil .nil "s" "s" 0 0
    1000000000 1000000000 2000000000 rfl rfl rfl rfl (by decide)
  exact ⟨by decide, h.1, h.2⟩

/-- C5: for every request, if after placeholder substitution the
configured duration or secret is empty, or the substituted duration
fails to parse, the handler returns an error, publishes no token, and
does not hand control to the next stage — in particular an empty
duration string errors before the parser is even consulted. -/
theorem claim_C5_precondition (s : JwtSigner) (repl : String → String)
    (parseDuration : String → Option Int) (sign : CMap → String → Option String)
    (now : Int)
    (h : repl s.Dur = "" ∨ repl s.Secret = "" ∨ parseDuration (repl s.Dur) = none) :
    (serveHTTP s repl parseDuration sign now).err.isSome = true
    ∧ (serveHTTP s repl parseDuration sign now).published = []
    ∧ (serveHTTP s repl parseDuration sign now).next = false := by
  unfold serveHTTP
  rcases h with h | h | h
  · simp [h]
  · by_cases hd : repl s.Dur = ""
    · simp [hd]
    · simp [hd, h]
  · by_cases hd : repl s.Dur = ""
    · simp [hd]
    · by_cases hs : repl s.Secret = ""
      · simp [hd, hs]
      · simp [hd, hs, h]

/-- Witness for C5: a duration placeholder that resolves to empty (under
a context sending everything to the empty string, with a parser that
would accept anything) makes the request fail with nothing published. -/
theorem claim_C5_precondition_witness :
    ((fun _ => "") "{dur}" = "" ∨ (fun _ => "") "sec" = ""
      ∨ (fun _ => some 1) ((fun _ => "") "{dur}") = none)
    ∧ (serveHTTP ⟨"{dur}", "sec", .nil⟩ (fun _ => "") (fun _ => some 1)
        (fun _ _ => some "TOK") 0).err.isSome = true
    ∧ (serveHTTP ⟨"{dur}", "sec", .nil⟩ (fun _ => "") (fun _ => some 1)
        (fun _ _ => some "TOK") 0).published = []
    ∧ (serveHTTP ⟨"{dur}", "sec", .nil⟩ (fun _ => "") (fun _ => some 1)
        (fun _ _ => some "TOK") 0).next = false := by
  have h := claim_C5_precondition ⟨"{dur}", "sec", .nil⟩ (fun _ => "")
    (fun _ => some 1) (fun _ _ => some "TOK") 0 (Or.inl rfl)
  exact ⟨Or.inl rfl, h.1, h.2.1, h.2.2⟩

/-- C6: on every failure path of the handler (empty duration or secret
after substitution, duration parse failure, or signing failure) nothing
is published into the substitution context and the next stage does not
run; on success exactly one value — the signed token — is published,
under the single fixed name `http.jwt_signer.digest_str`, and control is
handed to the next stage. -/
theorem claim_C6_publish (s : JwtSigner) (repl : String → String)
    (parseDuration : String → Option Int) (sign : CMap → String → Option String)
    (now : Int) :
    ((serveHTTP s repl parseDuration sign now).err.isSome = true →
      (serveHTTP s repl parseDuration sign now).published = []
      ∧ (serveHTTP s repl parseDuration sign now).next = false)
    ∧ ((serveHTTP s repl parseDuration sign now).err = none →
      ∃ dur tok, parseDuration (repl s.Dur) = some dur
        ∧ sign (issueClaims (fillClaims repl s.Claims) now dur) (repl s.Secret)
            = some tok
        ∧ (serveHTTP s repl parseDuration sign now).published
            = [("http.jwt_signer.digest_str", tok)]
        ∧ (serveHTTP s repl parseDuration sign now).next = true) := by
  unfold serveHTTP
  by_cases hd : repl s.Dur = ""
  · simp [hd]
  · by_cases hs : repl s.Secret = ""
    · simp [hd, hs]
    · rcases hp : parseDuration (repl s.Dur) with _ | dur
      · simp [hd, hs, hp]
      · rcases hsig : sign (issueClaims (fillClaims repl s.Claims) now dur)
            (repl s.Secret) with _ | tok
        · simp [hd, hs, hp, hsig]
        · refine ⟨by simp [hd, hs, hp, hsig], fun _ => ⟨dur, tok, rfl, hsig, ?_, ?_⟩⟩
          · simp [hd, hs, hp, hsig]
          · simp [hd, hs, hp, hsig]

/-- Witness for C6 covering both implications: a successful request
publishes exactly the signed token under the fixed name and proceeds; a
failing request publishes nothing and stops. -/
theorem claim_C6_publish_witness :
    ((serveHTTP ⟨"1h", "sec", .nil⟩ (fun s => s) (fun _ => some 3600000000000)
        (fun _ _ => some "TOK") 0).err = none
      ∧ ∃ tok, (serveHTTP ⟨"1h", "sec", .nil⟩ (fun s => s)
            (fun _ => some 3600000000000) (fun _ _ => some "TOK") 0).published
          = [("http.jwt_signer.digest_str", tok)]
        ∧ (serveHTTP ⟨"1h", "sec", .nil⟩ (fun s => s) (fun _ => some 3600000000000)
            (fun _ _ => some "TOK") 0).next = true)
    ∧ ((serveHTTP ⟨"{d}", "sec", .nil⟩ (fun _ => "") (fun _ => none)
          (fun _ _ => none) 1).err.isSome = true
      ∧ (serveHTTP ⟨"{d}", "sec", .nil⟩ (fun _ => "") (fun _ => none)
          (fun _ _ => none) 1).published = []
      ∧ (serveHTTP ⟨"{d}", "sec", .nil⟩ (fun _ => "") (fun _ => none)
          (fun _ _ => none) 1).next = false) := by
  constructor
  · refine ⟨by decide, ?_⟩
    obtain ⟨dur, tok, hp, hsig, hpub, hnext⟩ :=
      (claim_C6_publish ⟨"1h", "sec", .nil⟩ (fun s => s) (fun _ => some 3600000000000)
        (fun _ _ => some "TOK") 0).2 (by decide)
    exact ⟨tok, hpub, hnext⟩
  · have h := (claim_C6_publish ⟨"{d}", "sec", .nil⟩ (fun _ => "") (fun _ => none)
      (fun _ _ => none) 1).1 (by decide)
    exact ⟨by decide, h.1, h.2⟩

/-- C7: claim-template construction errors whenever an entry (at any
depth) has an empty key name, whenever an entry is declared with no
value and no non-empty nested block, and whenever an entry has too many
positional values; over well-formed input construction succeeds (it is a
pure function of the declarative input — no substitution, no I/O). -/
theorem claim_C7_construction :
    (∀ es, ContainsEntry EmptyKeyEntry es = true →
      resOk (parseClaimsCaddyfile es) = false)
    ∧ (∀ es, ContainsEntry NoValueEntry es = true →
      resOk (parseClaimsCaddyfile es) = false)
    ∧ (∀ es, ContainsEntry TooManyArgsEntry es = true →
      resOk (parseClaimsCaddyfile es) = false)
    ∧ (∀ es, WfEntries es = true → resOk (parseClaimsCaddyfile es) = true) := by
  have hgen : ∀ (p : RawEntry → Bool), (∀ e, p e = true → WfEntry e = false) →
      ∀ es, ContainsEntry p es = true → resOk (parseClaimsCaddyfile es) = false := by
    intro p hp es hc
    unfold parseClaimsCaddyfile
    rw [resOk_parseClaimsAux_eq_wf]
    exact wfEntries_false_of_contains p hp es hc
  refine ⟨hgen _ ?_, hgen _ ?_, hgen _ ?_, ?_⟩
  · intro e he
    rcases e with ⟨k, args⟩ | ⟨k, es'⟩
    · simp only [EmptyKeyEntry, decide_eq_true_eq] at he
      subst he
      rw [wfEntry_leaf]
      simp
    · simp only [EmptyKeyEntry, decide_eq_true_eq] at he
      subst he
      rw [wfEntry_block]
      simp
  · intro e he
    rcases e with ⟨k, args⟩ | ⟨k, es'⟩
    · simp only [NoValueEntry, List.isEmpty_iff] at he
      subst he
      rw [wfEntry_leaf]
      simp
    · simp only [NoValueEntry, List.isEmpty_iff] at he
      subst he
      rw [wfEntry_block]
      simp
  · intro e he
    rcases e with ⟨k, args⟩ | ⟨k, es'⟩
    · simp only [TooManyArgsEntry, decide_eq_true_eq] at he
      rw [wfEntry_leaf]
      rcases args with _ | ⟨a, _ | ⟨b, t⟩⟩
      · simp at he
      · simp at he
      · simp
    · simp [TooManyArgsEntry] at he
  · intro es hwf
    unfold parseClaimsCaddyfile
    rw [resOk_parseClaimsAux_eq_wf]
    exact hwf

/-- Witness for C7: each malformed shape at a concrete input errors, and
concrete well-formed input (leaf plus nested block) parses. -/
theorem claim_C7_construction_witness :
    ContainsEntry EmptyKeyEntry [RawEntry.leaf "" ["x"]] = true
    ∧ resOk (parseClaimsCaddyfile [RawEntry.leaf "" ["x"]]) = false
    ∧ ContainsEntry NoValueEntry [RawEntry.leaf "sub" []] = true
    ∧ resOk (parseClaimsCaddyfile [RawEntry.leaf "sub" []]) = false
    ∧ ContainsEntry NoValueEntry [RawEntry.block "user" []] = true
    ∧ resOk (parseClaimsCaddyfile [RawEntry.block "user" []]) = false
    ∧ ContainsEntry TooManyArgsEntry [RawEntry.leaf "sub" ["a", "b"]] = true
    ∧ resOk (parseClaimsCaddyfile [RawEntry.leaf "sub" ["a", "b"]]) = false
    ∧ WfEntries [RawEntry.leaf "sub" ["u"],
        RawEntry.block "user" [RawEntry.leaf "id" ["7"]]] = true
    ∧ resOk (parseClaimsCaddyfile [RawEntry.leaf "sub" ["u"],
        RawEntry.block "user" [RawEntry.leaf "id" ["7"]]]) = true := by
  obtain ⟨h1, h2, h3, h4⟩ := claim_C7_construction
  have c1 : ContainsEntry EmptyKeyEntry [RawEntry.leaf "" ["x"]] = true := by
    rw [containsEntry_cons, containsEntry_nil]
    rfl
  have c2 : ContainsEntry NoValueEntry [RawEntry.leaf "sub" []] = true := by
    rw [containsEntry_cons, containsEntry_nil]
    rfl
  have c3 : ContainsEntry NoValueEntry [RawEntry.block "user" []] = true := by
    rw [containsEntry_cons, containsEntry_nil]
    simp [NoValueEntry]
  have c4 : ContainsEntry TooManyArgsEntry [RawEntry.leaf "sub" ["a", "b"]] = true := by
    rw [containsEntry_cons, containsEntry_nil]
    rfl
  have c5 : WfEntries [RawEntry.leaf "sub" ["u"],
      RawEntry.block "user" [RawEntry.leaf "id" ["7"]]] = true := by
    rw [wfEntries_cons, wfEntry_leaf, wfEntries_cons, wfEntry_block,
      wfEntries_cons, wfEntry_leaf, wfEntries_nil]
    rfl
  exact ⟨c1, h1 _ c1, c2, h2 _ c2, c3, h2 _ c3, c4, h3 _ c4, c5, h4 _ c5⟩

/-- C8: a non-string, non-mapping (scalar) leaf with key `k` and value
`v` is placed in the output unchanged under `k`, for every substitution
context — scalar leaves are never pruned and never substituted. -/
theorem claim_C8_scalar_leaf (repl : String → String) (pat : CMap)
    (k : String) (sc : Scal) (h : pat.lookup k = some (.scalar sc)) :
    (fillClaims repl pat).lookup k = some (.scalar sc) :=
  fillClaims_lookup_scalar repl pat k sc h

/-- Witness for C8: `{flag: true}` expands to `{flag: true}` even under
the context sending every string to empty. -/
theorem claim_C8_scalar_leaf_witness :
    (CMap.cons "flag" (.scalar (.b true)) .nil).lookup "flag"
      = some (.scalar (.b true))
    ∧ (fillClaims (fun _ => "")
        (CMap.cons "flag" (.scalar (.b true)) .nil)).lookup "flag"
      = some (.scalar (.b true)) :=
  ⟨by decide, claim_C8_scalar_leaf (fun _ => "") _ "flag" (.b true) (by decide)⟩

/-- C9: every claim template built by Caddyfile construction maps each
key to a string or a nested mapping, never to a boolean or numeric
scalar, at every depth (values are dispenser tokens, i.e. strings:
`true` is stored as the string `"true"`), so the scalar pass-through
branch of expansion cannot fire on Caddyfile-built templates. -/
theorem claim_C9_no_scalars (es : List RawEntry) (m : CMap)
    (h : parseClaimsCaddyfile es = .ok m) : NoScalarMap m = true :=
  noScalar_parseClaimsAux .nil es rfl m h

/-- Witness for C9: the block `{flag true, age 42}` parses to string
values `"true"` and `"42"`, and the result is scalar-free. -/
theorem claim_C9_no_scalars_witness :
    parseClaimsCaddyfile [RawEntry.leaf "flag" ["true"], RawEntry.leaf "age" ["42"]]
      = .ok (CMap.cons "flag" (.str "true") (.cons "age" (.str "42") .nil))
    ∧ NoScalarMap (CMap.cons "flag" (.str "true")
        (.cons "age" (.str "42") .nil)) = true := by
  have heval : parseClaimsCaddyfile
      [RawEntry.leaf "flag" ["true"], RawEntry.leaf "age" ["42"]]
      = .ok (CMap.cons "flag" (.str "true") (.cons "age" (.str "42") .nil)) := by
    rw [parseClaimsCaddyfile, parseClaimsAux.eq_def]
    simp only [if_neg (by decide : ¬("flag" = "")), if_neg (by decide : ¬("true" = ""))]
    rw [parseClaimsAux.eq_def]
    simp only [if_neg (by decide : ¬("age" = "")), if_neg (by decide : ¬("42" = ""))]
    rw [parseClaimsAux.eq_def]
    rfl
  exact ⟨heval, claim_C9_no_scalars _ _ heval⟩

/-- C10: in every Claims Object produced by expansion (before `iat`/`exp`
injection) no key maps to the empty string and no key maps to an empty
nested mapping: every value is a non-empty string, a non-empty (and
recursively good) nested mapping, or a scalar copied verbatim from the
template; the invariant holds at every nesting level. -/
theorem claim_C10_output_invariant (repl : String → String) (pat : CMap) :
    GoodMap (fillClaims repl pat) = true
    ∧ (UniqKeys pat = true → ∀ (k : String) (sc : Scal),
        (fillClaims repl pat).lookup k = some (.scalar sc) →
        pat.lookup k = some (.scalar sc)) :=
  ⟨goodMap_fillClaims repl pat,
   fun hu k sc h => fillClaims_scalar_source repl pat hu k sc h⟩

/-- Witness for C10 at a template with all three leaf kinds: the output
satisfies the invariant and the surviving scalar comes from the
template. -/
theorem claim_C10_output_invariant_witness :
    GoodMap (fillClaims (fun s => if s = "{user}" then "alice" else "")
      (CMap.cons "sub" (.str "{user}")
        (.cons "flag" (.scalar (.b true))
          (.cons "p" (.nested (.cons "n" (.str "{name}") .nil)) .nil)))) = true
    ∧ UniqKeys (CMap.cons "sub" (.str "{user}")
        (.cons "flag" (.scalar (.b true))
          (.cons "p" (.nested (.cons "n" (.str "{name}") .nil)) .nil))) = true
    ∧ (fillClaims (fun s => if s = "{user}" then "alice" else "")
        (CMap.cons "sub" (.str "{user}")
          (.cons "flag" (.scalar (.b true))
            (.cons "p" (.nested (.cons "n" (.str "{name}") .nil)) .nil)))).lookup "flag"
      = some (.scalar (.b true))
    ∧ (CMap.cons "sub" (.str "{user}")
        (.cons "flag" (.scalar (.b true))
          (.cons "p" (.nested (.cons "n" (.str "{name}") .nil)) .nil))).lookup "flag"
      = some (.scalar (.b true)) := by
  have h := claim_C10_output_invariant (fun s => if s = "{user}" then "alice" else "")
    (CMap.cons "sub" (.str "{user}")
      (.cons "flag" (.scalar (.b true))
        (.cons "p" (.nested (.cons "n" (.str "{name}") .nil)) .nil)))
  exact ⟨h.1, by decide, by decide, h.2 (by decide) "flag" (.b true) (by decide)⟩
